import Mathlib

/-!
Shallow embedding of `parse.py` (wyze_fetch): a tool that scans a directory
tree of camera video segments, filters them by a time window decoded from
their paths, writes an ffmpeg concat manifest, invokes ffmpeg, and removes
the manifest.

Modelling conventions:
* A filesystem path is its list of `pathlib` parts (`FsPath` below); the
  result of `path.rglob("*.mp4")` is modelled as an input list of candidate
  paths handed to the enumerator.
* Python `datetime` values are modelled to second precision as `DateTime`;
  Python compares datetimes field-lexicographically.
* Python string comparison (used by `sorted` on `pathlib.FsPath` objects,
  which compare by their path string) is modelled as lexicographic
  comparison of code-point lists.
* `int(...)` is modelled as optional sign plus decimal digits with
  surrounding whitespace stripped (PEP-515 underscores are not modelled);
  `date.fromisoformat` is modelled in its canonical `YYYY-MM-DD` form.
* The `subprocess.run` call is an external effect: its outcome (normal
  completion with an exit status and captured streams, or a raised OSError
  such as `FileNotFoundError` when ffmpeg is absent) is a parameter
  `SubOutcome` of the model of `main`.
-/

/-- Python `datetime.datetime` restricted to second precision. -/
structure DateTime where
  year : Nat
  month : Nat
  day : Nat
  hour : Nat
  minute : Nat
  second : Nat
deriving DecidableEq

/-- The comparison key of a datetime: Python compares component-wise. -/
def DateTime.fieldsList (t : DateTime) : List Nat :=
  [t.year, t.month, t.day, t.hour, t.minute, t.second]

/-- Lexicographic strict comparison of `Nat` lists (Python tuple `<`). -/
def listLtB : List Nat → List Nat → Bool
  | _, [] => false
  | [], _ :: _ => true
  | x :: xs, y :: ys => if x = y then listLtB xs ys else decide (x < y)

/-- Lexicographic non-strict comparison of `Nat` lists (Python tuple `<=`). -/
def listLeB : List Nat → List Nat → Bool
  | [], _ => true
  | _ :: _, [] => false
  | x :: xs, y :: ys => if x = y then listLeB xs ys else decide (x < y)

/-- Python `datetime` comparison `a <= b` (field-lexicographic). -/
def dtLe (a b : DateTime) : Bool := listLeB a.fieldsList b.fieldsList

/-- The decimal digit characters. -/
def digitChar : Nat → Char
  | 0 => '0' | 1 => '1' | 2 => '2' | 3 => '3' | 4 => '4'
  | 5 => '5' | 6 => '6' | 7 => '7' | 8 => '8' | _ => '9'

/-- Value of a decimal digit character (`none` for non-digits). -/
def charDigit (c : Char) : Option Nat :=
  if 48 ≤ c.toNat ∧ c.toNat ≤ 57 then some (c.toNat - 48) else none

/-- Fixed-width zero-padded decimal rendering (big-endian), as characters. -/
def padChars : Nat → Nat → List Char
  | 0, _ => []
  | w+1, n => padChars w (n / 10) ++ [digitChar (n % 10)]

/-- Fixed-width zero-padded decimal rendering, as code points. -/
def padCodes : Nat → Nat → List Nat
  | 0, _ => []
  | w+1, n => padCodes w (n / 10) ++ [48 + n % 10]

/-- Accumulating parse of a run of decimal digit characters. -/
def readDigitsAcc : List Char → Nat → Option Nat
  | [], acc => some acc
  | c :: cs, acc =>
    match charDigit c with
    | none => none
    | some d => readDigitsAcc cs (acc * 10 + d)

/-- Gregorian leap-year rule (as in Python `datetime.date`). -/
def isLeapYear (y : Nat) : Bool :=
  y % 4 == 0 && (y % 100 != 0 || y % 400 == 0)

/-- Days in a month (as validated by Python `datetime.date`). -/
def daysInMonth (y m : Nat) : Nat :=
  if m = 2 then (if isLeapYear y then 29 else 28)
  else if m = 4 ∨ m = 6 ∨ m = 9 ∨ m = 11 then 30
  else 31

/-- Python `datetime.date.fromisoformat`, canonical `YYYY-MM-DD` form:
exactly ten characters, dashes at positions 4 and 7, four/two/two decimal
digits, and a valid Gregorian calendar date with a positive year. -/
def parseIsoDate (s : String) : Option (Nat × Nat × Nat) :=
  if s.data.length = 10 ∧ s.data.getD 4 ' ' = '-' ∧ s.data.getD 7 ' ' = '-' then
    match readDigitsAcc (s.data.take 4) 0, readDigitsAcc ((s.data.drop 5).take 2) 0,
        readDigitsAcc (s.data.drop 8) 0 with
    | some y, some mo, some d =>
      if 1 ≤ y ∧ 1 ≤ mo ∧ mo ≤ 12 ∧ 1 ≤ d ∧ d ≤ daysInMonth y mo then
        some (y, mo, d)
      else none
    | _, _, _ => none
  else none

/-- Python whitespace, as stripped by `int(str)`. -/
def isPySpace (c : Char) : Bool :=
  c == ' ' || c == '\t' || c == '\n' || c == '\r' || c == '\x0b' || c == '\x0c'

/-- Strip leading and trailing Python whitespace from a character list. -/
def pyStrip (cs : List Char) : List Char :=
  ((cs.dropWhile isPySpace).reverse.dropWhile isPySpace).reverse

/-- A nonempty all-digit run, or failure. -/
def readAllDigits (cs : List Char) : Option Nat :=
  match cs with
  | [] => none
  | _ :: _ => readDigitsAcc cs 0

/-- Python `int(...)` on a string: optional surrounding whitespace, an
optional sign, then decimal digits (PEP-515 underscores are not modelled). -/
def pyInt (s : String) : Option Int :=
  match pyStrip s.data with
  | [] => none
  | c :: ds =>
    if c = '+' then (readAllDigits ds).map (fun n => (n : Int))
    else if c = '-' then (readAllDigits ds).map (fun n => -(n : Int))
    else (readAllDigits (c :: ds)).map (fun n => (n : Int))

/-- Index of the last dot in a character list (Python `str.rfind`). -/
def rfindDot (cs : List Char) : Option Nat :=
  match cs.reverse.findIdx? (fun c => c == '.') with
  | some j => some (cs.length - 1 - j)
  | none => none

/-- Python `PurePath.stem`: the final path component minus its suffix; a
suffix exists only when the last dot is neither the first nor the final
character of the name. -/
def stem (name : String) : String :=
  match rfindDot name.data with
  | some i =>
    if 0 < i ∧ i + 1 < name.data.length then String.mk (name.data.take i) else name
  | none => name

/-- Exceptions the segment decoder can raise: `IndexError` from
`segment.parts[-3]` on short paths, and `ValueError` (the spec's
`MalformedSegmentPath`) from `date.fromisoformat`, `int`, or the
`datetime.time` range validation. -/
inductive DecodeErr
  | indexError
  | valueError
deriving DecidableEq

/-- A filesystem path, as its list of `pathlib` parts. -/
abbrev FsPath := List String

deriving instance DecidableEq for Except

/-- Decode one candidate path, mirroring
`datetime.combine(date.fromisoformat(parts[-3]), time(int(parts[-2]), int(stem), 0))`
from `enumerate_video_segments`. Negative indices are modelled on the
reversed part list; `parts[-3]` is evaluated first, so a path with fewer
than three components raises `IndexError` before any value parsing. -/
def decodeSegment (p : FsPath) : Except DecodeErr DateTime :=
  if p.length < 3 then .error .indexError
  else
    match parseIsoDate (p.reverse.getD 2 ("")) with
    | none => .error .valueError
    | some (y, mo, d) =>
      match pyInt (p.reverse.getD 1 ("")) with
      | none => .error .valueError
      | some hI =>
        match pyInt (stem (p.reverse.getD 0 (""))) with
        | none => .error .valueError
        | some miI =>
          if 0 ≤ hI ∧ hI ≤ 23 ∧ 0 ≤ miI ∧ miI ≤ 59 then
            .ok ⟨y, mo, d, hI.toNat, miI.toNat, 0⟩
          else .error .valueError

/-- Whether a candidate decodes without raising. -/
def decodeOk (p : FsPath) : Bool :=
  match decodeSegment p with
  | .ok _ => true
  | .error _ => false

/-- `begin <= decoded <= end` for a candidate that decodes. -/
def inWindowB (b e : DateTime) (p : FsPath) : Bool :=
  match decodeSegment p with
  | .ok t => dtLe b t && dtLe t e
  | .error _ => false

/-- Python `set.add`: membership is by path value. -/
def setAdd (acc : List FsPath) (p : FsPath) : List FsPath :=
  if p ∈ acc then acc else acc ++ [p]

/-- The loop of `enumerate_video_segments`: each candidate is decoded (a
decode failure propagates, aborting the run) and added to the match set
when its timestamp lies in the closed window. -/
def enumGo (b e : DateTime) : List FsPath → List FsPath → Except DecodeErr (List FsPath)
  | [], acc => .ok acc
  | seg :: rest, acc =>
    match decodeSegment seg with
    | .error err => .error err
    | .ok t =>
      if dtLe b t && dtLe t e then enumGo b e rest (setAdd acc seg)
      else enumGo b e rest acc

/-- `enumerate_video_segments(begin, end, path)`; the `rglob` result is the
`discovered` parameter. -/
def enumerate_video_segments (b e : DateTime) (discovered : List FsPath) :
    Except DecodeErr (List FsPath) :=
  enumGo b e discovered []

/-- Code points of a string. -/
def strCodes (s : String) : List Nat := s.data.map Char.toNat

/-- Code points of `str(path)`: parts joined by a slash (code 47); the
anchor part of an absolute path joins without a separator. -/
def pathCodes : FsPath → List Nat
  | [] => []
  | [s] => strCodes s
  | s :: r :: rest =>
    if s = "/" then strCodes s ++ pathCodes (r :: rest)
    else strCodes s ++ 47 :: pathCodes (r :: rest)

/-- `str(path)` itself, for manifest lines. -/
def pathStr : FsPath → String
  | [] => ""
  | [s] => s
  | s :: r :: rest =>
    if s = "/" then s ++ pathStr (r :: rest)
    else s ++ "/" ++ pathStr (r :: rest)

/-- Python string `<` on code-point lists. -/
def lexLt : List Nat → List Nat → Bool
  | _, [] => false
  | [], _ :: _ => true
  | x :: xs, y :: ys => if x = y then lexLt xs ys else decide (x < y)

/-- `pathlib.PurePath` comparison `p <= q`: string order, `not (q < p)`. -/
def pathLe (p q : FsPath) : Prop := lexLt (pathCodes q) (pathCodes p) = false

instance : DecidableRel pathLe := fun p q =>
  inferInstanceAs (Decidable (lexLt (pathCodes q) (pathCodes p) = false))

/-- Python `sorted(segments)` on paths. -/
def sortPaths (l : List FsPath) : List FsPath := List.insertionSort pathLe l

/-- One manifest line, `f"file '{line}'\n"`. -/
def manifestLine (p : FsPath) : String :=
  "file \x27" ++ pathStr p ++ "\x27\n"

/-- `datetime.isoformat(timespec="minutes")`. -/
def isoMinutes (t : DateTime) : String :=
  String.mk (padChars 4 t.year ++ '-' :: padChars 2 t.month ++ '-' ::
    padChars 2 t.day ++ 'T' :: padChars 2 t.hour ++ ':' :: padChars 2 t.minute)

/-- The parsed command-line arguments relevant to `main` (after
`parse_args`): validated directories, optional output name, verbosity
count, and the resolved window. -/
structure Args where
  source_dir : FsPath
  out_dir : FsPath
  file_name : Option String
  verbose : Nat
  beginT : DateTime
  endT : DateTime

/-- Outcome of the `subprocess.run` call: either the child process ran and
exited with a return code and captured streams, or the call itself raised
(for example `FileNotFoundError` when ffmpeg is not installed). -/
inductive SubOutcome
  | completed (returncode : Int) (stdoutS stderrS : String)
  | raised (exc : String)

/-- An exception propagating out of `main`, terminating the interpreter. -/
inductive PyExc
  | decodeFailure (e : DecodeErr)
  | osError (msg : String)
deriving DecidableEq

/-- Observable outcome of one run of `main`. -/
structure Trace where
  manifestCreated : Bool
  manifestLines : List String
  outPath : Option FsPath
  toolInvoked : Bool
  mergeErrorLogged : Option String
  manifestRemains : Bool
  uncaughtExc : Option PyExc
  exitCode : Nat
deriving DecidableEq

/-- `f"Failed to run ffmpeg: {result.stderr} {result.stdout}"`. -/
def mergeErrMsg (stderrS stdoutS : String) : String :=
  "Failed to run ffmpeg: " ++ stderrS ++ " " ++ stdoutS

/-- `f"{args.begin.isoformat(timespec='minutes')}-{args.end.isoformat(timespec='minutes')}.mkv"`. -/
def derivedName (a : Args) : String :=
  isoMinutes a.beginT ++ "-" ++ isoMinutes a.endT ++ ".mkv"

/-- `args.file_name if args.file_name else <derived>`: Python truthiness,
so both `None` and the empty string fall back to the derived name. -/
def resolveOutfile (a : Args) : String :=
  match a.file_name with
  | some n => if n = "" then derivedName a else n
  | none => derivedName a

/-- `main()` after argument parsing. An uncaught Python exception terminates
the interpreter with exit status 1; a normal return exits with 0. The
temporary manifest is created (NamedTemporaryFile, delete=False) before the
write loop, and `os.unlink` runs only when control reaches the last line of
`main`, after the subprocess call returns. -/
def mainModel (a : Args) (discovered : List FsPath) (sub : SubOutcome) : Trace :=
  match enumerate_video_segments a.beginT a.endT discovered with
  | .error err =>
    { manifestCreated := false, manifestLines := [], outPath := none,
      toolInvoked := false, mergeErrorLogged := none, manifestRemains := false,
      uncaughtExc := some (.decodeFailure err), exitCode := 1 }
  | .ok segments =>
    let lines := (sortPaths segments).map manifestLine
    let outfile := resolveOutfile a
    match sub with
    | .raised exc =>
      { manifestCreated := true, manifestLines := lines,
        outPath := some (a.out_dir ++ [outfile]), toolInvoked := true,
        mergeErrorLogged := none, manifestRemains := true,
        uncaughtExc := some (.osError exc), exitCode := 1 }
    | .completed rc stdoutS stderrS =>
      { manifestCreated := true, manifestLines := lines,
        outPath := some (a.out_dir ++ [outfile]), toolInvoked := true,
        mergeErrorLogged := if rc ≠ 0 then some (mergeErrMsg stderrS stdoutS) else none,
        manifestRemains := false, uncaughtExc := none, exitCode := 0 }

/-- `setup_logger`: `max([logging.WARNING - verbosity*10, 0])` with
`logging.WARNING = 30`; this is the root logger level that `basicConfig`
receives. -/
def setup_logger_level (verbosity : Nat) : Int :=
  max (30 - (verbosity : Int) * 10) 0

/-- `logging.DEBUG`, the most verbose named level. -/
def debugLevel : Int := 10

/-! ## Basic order lemmas for the lexicographic comparisons -/

theorem listLeB_nil_left (b : List Nat) : listLeB [] b = true := by
  cases b <;> rfl

theorem listLeB_trans :
    ∀ a b c : List Nat, listLeB a b = true → listLeB b c = true →
      listLeB a c = true := by
  intro a
  induction a with
  | nil => intro b c _ _; exact listLeB_nil_left c
  | cons x xs ih =>
    intro b c h1 h2
    cases b with
    | nil => simp [listLeB] at h1
    | cons y ys =>
      cases c with
      | nil => simp [listLeB] at h2
      | cons z zs =>
        simp only [listLeB] at h1 h2 ⊢
        by_cases hxy : x = y
        · subst hxy
          rw [if_pos rfl] at h1
          by_cases hyz : x = z
          · subst hyz; rw [if_pos rfl] at h2 ⊢; exact ih ys zs h1 h2
          · rw [if_neg hyz] at h2 ⊢; exact h2
        · rw [if_neg hxy] at h1
          have hxy2 : x < y := of_decide_eq_true h1
          by_cases hyz : y = z
          · subst hyz
            rw [if_neg hxy]
            exact decide_eq_true hxy2
          · rw [if_neg hyz] at h2
            have hyz2 : y < z := of_decide_eq_true h2
            have hxz : x ≠ z := by omega
            rw [if_neg hxz]
            exact decide_eq_true (by omega)

theorem dtLe_trans (a b c : DateTime) (h1 : dtLe a b = true)
    (h2 : dtLe b c = true) : dtLe a c = true :=
  listLeB_trans _ _ _ h1 h2

/-! ## The enumerator loop -/

theorem mem_setAdd {acc : List FsPath} {p q : FsPath} :
    q ∈ setAdd acc p ↔ q ∈ acc ∨ q = p := by
  by_cases hm : p ∈ acc
  · simp only [setAdd, if_pos hm]
    constructor
    · exact Or.inl
    · rintro (h | rfl)
      · exact h
      · exact hm
  · simp [setAdd, if_neg hm]

theorem setAdd_nodup {acc : List FsPath} {p : FsPath} (h : acc.Nodup) :
    (setAdd acc p).Nodup := by
  by_cases hm : p ∈ acc
  · simpa [setAdd, if_pos hm] using h
  · simp [setAdd, if_neg hm, List.nodup_append, h, hm]

theorem enumGo_ok_mem (b e : DateTime) :
    ∀ (L acc res : List FsPath), enumGo b e L acc = .ok res →
      ∀ p, p ∈ res ↔ (p ∈ acc ∨ (p ∈ L ∧ inWindowB b e p = true)) := by
  intro L
  induction L with
  | nil =>
    intro acc res h p
    simp only [enumGo, Except.ok.injEq] at h
    subst h
    simp
  | cons seg rest ih =>
    intro acc res h p
    cases hd : decodeSegment seg with
    | error err => simp [enumGo, hd] at h
    | ok t =>
      simp only [enumGo, hd] at h
      by_cases hw : (dtLe b t && dtLe t e) = true
      · rw [if_pos hw] at h
        have hmem := ih (setAdd acc seg) res h p
        have hseg : inWindowB b e seg = true := by
          simp only [inWindowB, hd]
          exact hw
        rw [hmem, mem_setAdd]
        constructor
        · rintro ((hp | rfl) | ⟨hr, hwin⟩)
          · exact Or.inl hp
          · exact Or.inr ⟨by simp, hseg⟩
          · exact Or.inr ⟨List.mem_cons_of_mem _ hr, hwin⟩
        · rintro (hp | ⟨hmem2, hwin⟩)
          · exact Or.inl (Or.inl hp)
          · rcases List.mem_cons.mp hmem2 with rfl | hr
            · exact Or.inl (Or.inr rfl)
            · exact Or.inr ⟨hr, hwin⟩
      · rw [if_neg hw] at h
        have hmem := ih acc res h p
        have hseg : inWindowB b e seg = false := by
          simp only [inWindowB, hd]
          exact Bool.not_eq_true _ ▸ Bool.of_not_eq_true hw
        rw [hmem]
        constructor
        · rintro (hp | ⟨hr, hwin⟩)
          · exact Or.inl hp
          · exact Or.inr ⟨List.mem_cons_of_mem _ hr, hwin⟩
        · rintro (hp | ⟨hmem2, hwin⟩)
          · exact Or.inl hp
          · rcases List.mem_cons.mp hmem2 with rfl | hr
            · rw [hseg] at hwin; cases hwin
            · exact Or.inr ⟨hr, hwin⟩

theorem enumGo_exists_ok (b e : DateTime) :
    ∀ (L acc : List FsPath), (∀ p ∈ L, decodeOk p = true) →
      ∃ res, enumGo b e L acc = .ok res := by
  intro L
  induction L with
  | nil => intro acc _; exact ⟨acc, rfl⟩
  | cons seg rest ih =>
    intro acc h
    have h1 : decodeOk seg = true := h seg (by simp)
    cases hd : decodeSegment seg with
    | error err => simp [decodeOk, hd] at h1
    | ok t =>
      have h2 : ∀ p ∈ rest, decodeOk p = true := fun p hp =>
        h p (List.mem_cons_of_mem _ hp)
      by_cases hw : (dtLe b t && dtLe t e) = true
      · obtain ⟨res, hres⟩ := ih (setAdd acc seg) h2
        exact ⟨res, by simp [enumGo, hd, hw, hres]⟩
      · obtain ⟨res, hres⟩ := ih acc h2
        exact ⟨res, by simp [enumGo, hd, hw, hres]⟩

theorem enumGo_nodup (b e : DateTime) :
    ∀ (L acc res : List FsPath), acc.Nodup → enumGo b e L acc = .ok res →
      res.Nodup := by
  intro L
  induction L with
  | nil =>
    intro acc res hacc h
    simp only [enumGo, Except.ok.injEq] at h
    subst h
    exact hacc
  | cons seg rest ih =>
    intro acc res hacc h
    cases hd : decodeSegment seg with
    | error err => simp [enumGo, hd] at h
    | ok t =>
      simp only [enumGo, hd] at h
      by_cases hw : (dtLe b t && dtLe t e) = true
      · rw [if_pos hw] at h
        exact ih (setAdd acc seg) res (setAdd_nodup hacc) h
      · rw [if_neg hw] at h
        exact ih acc res hacc h

/-! ## C1: the enumerator returns exactly the in-window subset -/

/-- C1: for every set of discovered segment paths that all decode and every
window, the enumerator succeeds and returns exactly the subset of the
discovered paths whose decoded timestamp `t` satisfies `begin <= t <= end`
(closed on both ends, so boundary-equal segments are included and anything
strictly outside is excluded). -/
theorem enumerate_window_exact (b e : DateTime) (discovered : List FsPath)
    (h : ∀ p ∈ discovered, decodeOk p = true) :
    ∃ res, enumerate_video_segments b e discovered = .ok res ∧
      ∀ p, p ∈ res ↔ (p ∈ discovered ∧ inWindowB b e p = true) := by
  obtain ⟨res, hres⟩ := enumGo_exists_ok b e discovered [] h
  refine ⟨res, hres, fun p => ?_⟩
  rw [enumGo_ok_mem b e discovered [] res hres p]
  simp

/-- Witness for C1 at the spec's own scenario, with both window bounds
landing exactly on a segment: files at 13:05, 13:10, 13:15 with window
[13:05, 13:10] keep exactly the boundary-equal first two. -/
theorem enumerate_window_exact_witness :
    (∀ p ∈ ([["2024-01-01", "13", "05.mp4"], ["2024-01-01", "13", "10.mp4"],
        ["2024-01-01", "13", "15.mp4"]] : List FsPath), decodeOk p = true) ∧
    (∃ res, enumerate_video_segments ⟨2024, 1, 1, 13, 5, 0⟩ ⟨2024, 1, 1, 13, 10, 0⟩
        [["2024-01-01", "13", "05.mp4"], ["2024-01-01", "13", "10.mp4"],
          ["2024-01-01", "13", "15.mp4"]] = .ok res ∧
      ∀ p, p ∈ res ↔ (p ∈ ([["2024-01-01", "13", "05.mp4"], ["2024-01-01", "13", "10.mp4"],
          ["2024-01-01", "13", "15.mp4"]] : List FsPath) ∧
        inWindowB ⟨2024, 1, 1, 13, 5, 0⟩ ⟨2024, 1, 1, 13, 10, 0⟩ p = true)) :=
  ⟨by decide, enumerate_window_exact _ _ _ (by decide)⟩

/-! ## C10: short paths raise IndexError, not the malformed-path error -/

/-- C10: a discovered path with fewer than three components makes the
decoder raise `IndexError` when reading the part three levels up - a
failure distinct from the `ValueError` decode error - and the enumerator
propagates it, aborting the run. -/
theorem decode_short_path_indexError (p : FsPath) (h : p.length < 3) :
    decodeSegment p = .error .indexError ∧
    (∀ b e rest, enumerate_video_segments b e (p :: rest) = .error .indexError) ∧
    DecodeErr.indexError ≠ DecodeErr.valueError := by
  have hd : decodeSegment p = .error .indexError := by
    simp [decodeSegment, if_pos h]
  refine ⟨hd, fun b e rest => ?_, by decide⟩
  simp [enumerate_video_segments, enumGo, hd]

/-- Witness for C10: a file sitting directly at a relative scan root. -/
theorem decode_short_path_indexError_witness :
    decodeSegment [("05.mp4" : String)] = .error .indexError ∧
    enumerate_video_segments ⟨2024, 1, 1, 0, 0, 0⟩ ⟨2024, 1, 2, 0, 0, 0⟩
      [[("05.mp4" : String)]] = .error .indexError :=
  have h := decode_short_path_indexError [("05.mp4" : String)] (by decide)
  ⟨h.1, h.2.1 _ _ []⟩

/-! ## C6: deduplication is by path value, not by resolved file -/

/-- A resolution map for a filesystem in which the top-level directory
`mirror` is a symlink to `data`: resolving rewrites the head part. -/
def resolveMirror (p : FsPath) : FsPath :=
  match p with
  | s :: rest => if s = "mirror" then ("data" :: rest) else s :: rest
  | [] => []

/-- Two traversal paths reach the same logical file under `resolveMirror`. -/
def sameResolvedFile (p q : FsPath) : Bool := resolveMirror p == resolveMirror q

/-- C6 counterexample: two textually distinct traversals of the same
resolved file (through the `mirror` symlink) BOTH survive enumeration, so
the result is not de-duplicated by logical file identity. -/
theorem enumerate_no_identity_dedup :
    enumerate_video_segments ⟨2024, 1, 1, 0, 0, 0⟩ ⟨2024, 1, 2, 0, 0, 0⟩
        [["data", "2024-01-01", "13", "05.mp4"], ["mirror", "2024-01-01", "13", "05.mp4"]]
      = .ok [["data", "2024-01-01", "13", "05.mp4"], ["mirror", "2024-01-01", "13", "05.mp4"]] ∧
    sameResolvedFile ["data", "2024-01-01", "13", "05.mp4"]
      ["mirror", "2024-01-01", "13", "05.mp4"] = true ∧
    (["data", "2024-01-01", "13", "05.mp4"] : FsPath) ≠
      ["mirror", "2024-01-01", "13", "05.mp4"] := by
  decide

/-- C6 amended: the enumerator's result is de-duplicated by path value (the
result list never repeats a path, and membership is exactly the in-window
condition); a logical file reachable via distinct path strings appears once
per distinct path. -/
theorem enumerate_nodup (b e : DateTime) (discovered res : List FsPath)
    (h : enumerate_video_segments b e discovered = .ok res) :
    res.Nodup ∧ ∀ p, p ∈ res ↔ (p ∈ discovered ∧ inWindowB b e p = true) := by
  refine ⟨enumGo_nodup b e discovered [] res (by simp) h, fun p => ?_⟩
  rw [enumGo_ok_mem b e discovered [] res h p]
  simp

/-- Witness for C6 amended: a duplicated discovery of the same path is kept
once. -/
theorem enumerate_nodup_witness :
    ([["d", "2024-01-01", "13", "05.mp4"]] : List FsPath).Nodup ∧
    (∀ p, p ∈ ([["d", "2024-01-01", "13", "05.mp4"]] : List FsPath) ↔
      (p ∈ ([["d", "2024-01-01", "13", "05.mp4"], ["d", "2024-01-01", "13", "05.mp4"]] : List FsPath) ∧
        inWindowB ⟨2024, 1, 1, 0, 0, 0⟩ ⟨2024, 1, 2, 0, 0, 0⟩ p = true)) :=
  enumerate_nodup _ _ _ _ (by decide)

/-! ## C8: an inverted window yields an empty set and the tool still runs -/

theorem inWindow_implies_le (b e : DateTime) (p : FsPath)
    (h : inWindowB b e p = true) : dtLe b e = true := by
  unfold inWindowB at h
  cases hd : decodeSegment p with
  | error err => rw [hd] at h; cases h
  | ok t =>
    rw [hd] at h
    have h2 := Bool.and_eq_true_iff.mp h
    exact dtLe_trans b t e h2.1 h2.2

theorem window_inverted_empty (b e : DateTime) (h : dtLe b e = false) :
    ∀ discovered res, enumerate_video_segments b e discovered = .ok res →
      res = [] := by
  intro discovered res hres
  rw [List.eq_nil_iff_forall_not_mem]
  intro p hp
  rcases (enumGo_ok_mem b e discovered [] res hres p).mp hp with hacc | ⟨_, hwin⟩
  · cases hacc
  · rw [inWindow_implies_le b e p hwin] at h
    cases h

/-- C8: when `begin > end` the enumerator's selected set is empty, and the
run still reaches the external merge tool invocation with an empty
manifest instead of short-circuiting. -/
theorem inverted_window_empty_run (a : Args) (discovered segs : List FsPath)
    (sub : SubOutcome)
    (hbe : dtLe a.beginT a.endT = false)
    (hok : enumerate_video_segments a.beginT a.endT discovered = .ok segs) :
    segs = [] ∧ (mainModel a discovered sub).toolInvoked = true ∧
      (mainModel a discovered sub).manifestLines = [] := by
  have hnil := window_inverted_empty _ _ hbe discovered segs hok
  subst hnil
  unfold mainModel
  rw [hok]
  cases sub <;> simp [sortPaths, List.insertionSort]

/-- Witness for C8: begin one day after end; a decodable file is on disk,
the selected set is empty, the tool is still invoked on an empty manifest. -/
theorem inverted_window_empty_run_witness :
    ([] : List FsPath) = [] ∧
    (mainModel ⟨["r"], ["o"], none, 0, ⟨2024, 1, 2, 0, 0, 0⟩, ⟨2024, 1, 1, 0, 0, 0⟩⟩
      [["2024-01-01", "13", "05.mp4"]] (.completed 0 ("") (""))).toolInvoked = true ∧
    (mainModel ⟨["r"], ["o"], none, 0, ⟨2024, 1, 2, 0, 0, 0⟩, ⟨2024, 1, 1, 0, 0, 0⟩⟩
      [["2024-01-01", "13", "05.mp4"]] (.completed 0 ("") (""))).manifestLines = [] :=
  inverted_window_empty_run _ _ _ _ (by decide) (by decide)

/-! ## C2: manifest cleanup is not exception-safe -/

/-- C2 counterexample: a run in which the manifest has been created and the
subprocess launch then raises (ffmpeg absent). The exception propagates
past the unlink call, so the temporary manifest remains on local storage -
contradicting deletion on every exit path. -/
theorem manifest_left_behind_on_raise :
    (mainModel ⟨["r"], ["o"], none, 0, ⟨2024, 1, 1, 13, 0, 0⟩, ⟨2024, 1, 1, 14, 0, 0⟩⟩
        [["2024-01-01", "13", "05.mp4"]] (.raised ("FileNotFoundError"))).manifestCreated
      = true ∧
    (mainModel ⟨["r"], ["o"], none, 0, ⟨2024, 1, 1, 13, 0, 0⟩, ⟨2024, 1, 1, 14, 0, 0⟩⟩
        [["2024-01-01", "13", "05.mp4"]] (.raised ("FileNotFoundError"))).manifestRemains
      = true ∧
    (mainModel ⟨["r"], ["o"], none, 0, ⟨2024, 1, 1, 13, 0, 0⟩, ⟨2024, 1, 1, 14, 0, 0⟩⟩
        [["2024-01-01", "13", "05.mp4"]] (.raised ("FileNotFoundError"))).uncaughtExc
      = some (.osError ("FileNotFoundError")) := by
  refine ⟨rfl, rfl, rfl⟩

/-- C2 amended: the manifest is deleted whenever the subprocess call
returns, whatever its exit status; but an error thrown between manifest
creation and the unlink statement (such as a failure launching the tool)
propagates without deleting it. This theorem proves the first half: on any
run in which `subprocess.run` returns, no manifest remains. -/
theorem manifest_deleted_when_subprocess_returns (a : Args)
    (discovered : List FsPath) (rc : Int) (outS errS : String) :
    (mainModel a discovered (.completed rc outS errS)).manifestRemains = false := by
  unfold mainModel
  cases henum : enumerate_video_segments a.beginT a.endT discovered <;> simp

/-! ## C3: non-zero merge exit is logged, cleaned up, and exits 0 -/

/-- C3: when the external merge tool exits with a non-zero status the
program logs the captured stderr and stdout at the error level, raises no
exception, still deletes the temporary manifest, and terminates normally
with process exit code 0. -/
theorem merge_failure_graceful (a : Args) (discovered segs : List FsPath)
    (rc : Int) (outS errS : String)
    (hrc : rc ≠ 0)
    (hok : enumerate_video_segments a.beginT a.endT discovered = .ok segs) :
    (mainModel a discovered (.completed rc outS errS)).mergeErrorLogged
        = some (mergeErrMsg errS outS) ∧
    (mainModel a discovered (.completed rc outS errS)).uncaughtExc = none ∧
    (mainModel a discovered (.completed rc outS errS)).manifestRemains = false ∧
    (mainModel a discovered (.completed rc outS errS)).exitCode = 0 := by
  unfold mainModel
  rw [hok]
  simp [hrc]

/-- Witness for C3 at a concrete failing merge. -/
theorem merge_failure_graceful_witness :
    (mainModel ⟨["r"], ["o"], none, 0, ⟨2024, 1, 1, 13, 0, 0⟩, ⟨2024, 1, 1, 14, 0, 0⟩⟩
        [] (.completed 1 ("frames written") ("boom"))).mergeErrorLogged
      = some (mergeErrMsg ("boom") ("frames written")) ∧
    (mainModel ⟨["r"], ["o"], none, 0, ⟨2024, 1, 1, 13, 0, 0⟩, ⟨2024, 1, 1, 14, 0, 0⟩⟩
        [] (.completed 1 ("frames written") ("boom"))).uncaughtExc = none ∧
    (mainModel ⟨["r"], ["o"], none, 0, ⟨2024, 1, 1, 13, 0, 0⟩, ⟨2024, 1, 1, 14, 0, 0⟩⟩
        [] (.completed 1 ("frames written") ("boom"))).manifestRemains = false ∧
    (mainModel ⟨["r"], ["o"], none, 0, ⟨2024, 1, 1, 13, 0, 0⟩, ⟨2024, 1, 1, 14, 0, 0⟩⟩
        [] (.completed 1 ("frames written") ("boom"))).exitCode = 0 :=
  merge_failure_graceful _ _ [] 1 ("frames written") ("boom") (by decide) (by decide)

/-! ## C9: output naming -/

/-- C9 counterexample: an explicitly supplied EMPTY output filename does
not override the derived name - Python truthiness treats it as absent and
the derived `<begin>-<end>.mkv` name is used instead. -/
theorem empty_filename_not_override :
    resolveOutfile ⟨["r"], ["o"], some (""), 0, ⟨2024, 1, 1, 13, 0, 0⟩,
        ⟨2024, 1, 1, 13, 30, 0⟩⟩
      = ("2024-01-01T13:00-2024-01-01T13:30.mkv") ∧
    resolveOutfile ⟨["r"], ["o"], some (""), 0, ⟨2024, 1, 1, 13, 0, 0⟩,
        ⟨2024, 1, 1, 13, 30, 0⟩⟩ ≠ ("") := by
  refine ⟨by decide, by decide⟩

/-- C9 amended: with no filename (or an explicitly empty one) the output
lands in the output directory under
`<begin-ISO-minutes>-<end-ISO-minutes>.mkv`; a non-empty explicit filename
overrides the derived name. -/
theorem output_naming (a : Args) (discovered segs : List FsPath)
    (sub : SubOutcome)
    (hok : enumerate_video_segments a.beginT a.endT discovered = .ok segs) :
    (a.file_name = none → resolveOutfile a = derivedName a) ∧
    (∀ n, a.file_name = some n → n ≠ ("") → resolveOutfile a = n) ∧
    (mainModel a discovered sub).outPath = some (a.out_dir ++ [resolveOutfile a]) := by
  refine ⟨?_, ?_, ?_⟩
  · intro h; simp [resolveOutfile, h]
  · intro n h hne; simp [resolveOutfile, h, hne]
  · unfold mainModel
    rw [hok]
    cases sub <;> simp

/-- Witness for C9 amended, yielding the spec's example derived filename. -/
theorem output_naming_witness :
    (mainModel ⟨["r"], ["out"], none, 0, ⟨2024, 1, 1, 13, 0, 0⟩, ⟨2024, 1, 1, 13, 30, 0⟩⟩
        [] (.completed 0 ("") (""))).outPath
      = some (["out", "2024-01-01T13:00-2024-01-01T13:30.mkv"]) := by
  have h := output_naming
    ⟨["r"], ["out"], none, 0, ⟨2024, 1, 1, 13, 0, 0⟩, ⟨2024, 1, 1, 13, 30, 0⟩⟩
    [] [] (.completed 0 ("") ("")) (by decide)
  rw [h.2.2]
  decide

/-! ## C7: verbosity-to-level mapping -/

/-- Closed form of `setup_logger_level` used in the proofs below. -/
theorem setup_logger_level_closed (v : Nat) :
    setup_logger_level v = if (v : Int) ≤ 2 then 30 - (v : Int) * 10 else 0 := by
  unfold setup_logger_level
  rcases le_or_lt ((v : Int)) 2 with h | h
  · rw [if_pos h, max_eq_left (by omega)]
  · rw [if_neg (by omega), max_eq_right (by omega)]

/-- C7 counterexample: three verbosity repeats configure level
`0` (`NOTSET`), which is strictly below `logging.DEBUG = 10`, so the
threshold is NOT floored at the debug level. -/
theorem verbosity_floor_below_debug :
    setup_logger_level 3 = 0 ∧ setup_logger_level 3 < debugLevel := by
  refine ⟨by decide, by decide⟩

/-- C7 amended: zero repeats select WARNING (30); each additional repeat
lowers the threshold by one 10-unit level until it bottoms out at 0
(`NOTSET`, one step below DEBUG) from three repeats on; the mapping is
monotone non-increasing and never negative. -/
theorem verbosity_level_map :
    setup_logger_level 0 = 30 ∧
    (∀ v, setup_logger_level (v + 1) = max (setup_logger_level v - 10) 0) ∧
    (∀ v, setup_logger_level (v + 1) ≤ setup_logger_level v) ∧
    (∀ v, 3 ≤ v → setup_logger_level v = 0) ∧
    (∀ v, 0 ≤ setup_logger_level v) := by
  refine ⟨by decide, fun v => ?_, fun v => ?_, fun v hv => ?_, fun v => ?_⟩
  · rw [setup_logger_level_closed, setup_logger_level_closed]
    push_cast
    split_ifs <;> [skip; skip; skip; skip] <;> rw [max_def] <;> split_ifs <;> omega
  · rw [setup_logger_level_closed, setup_logger_level_closed]
    push_cast
    split_ifs <;> omega
  · rw [setup_logger_level_closed]
    have : ¬ ((v : Int) ≤ 2) := by omega
    rw [if_neg this]
  · rw [setup_logger_level_closed]
    split_ifs <;> omega

/-- Witness for C7 amended. -/
theorem verbosity_level_map_witness :
    setup_logger_level 0 = 30 ∧ setup_logger_level 5 = 0 :=
  ⟨verbosity_level_map.1, verbosity_level_map.2.2.2.1 5 (by decide)⟩

/-! ## C4: what the decoder actually accepts vs the spec's convention -/

/-- An optional parsed integer lies in a closed range. -/
def intInRange (x : Option Int) (lo hi : Int) : Bool :=
  match x with
  | some n => decide (lo ≤ n) && decide (n ≤ hi)
  | none => false

/-- The decoder's actual acceptance condition, stated as an independent
conjunction: at least three components, grandparent a parseable ISO date,
parent an `int`-parseable hour in 0..23, stem an `int`-parseable minute in
0..59. -/
def codeAccepts (p : FsPath) : Bool :=
  decide (3 ≤ p.length) &&
  (parseIsoDate (p.reverse.getD 2 (""))).isSome &&
  intInRange (pyInt (p.reverse.getD 1 (""))) 0 23 &&
  intInRange (pyInt (stem (p.reverse.getD 0 ("")))) 0 59

/-- A string that is exactly two decimal digits whose value is at most
`bound`. -/
def twoDigitVal (s : String) (bound : Nat) : Bool :=
  match s.data with
  | [a, b] =>
    match charDigit a, charDigit b with
    | some da, some db => decide (da * 10 + db ≤ bound)
    | _, _ => false
  | _ => false

/-- The spec's three-level naming convention taken literally: grandparent a
valid ISO-8601 date, parent a TWO-DIGIT hour in range, stem a TWO-DIGIT
minute in range. Stated from the spec's words, for comparison with
`codeAccepts`. -/
def specConforming (p : FsPath) : Bool :=
  decide (3 ≤ p.length) &&
  (parseIsoDate (p.reverse.getD 2 (""))).isSome &&
  twoDigitVal (p.reverse.getD 1 ("")) 23 &&
  twoDigitVal (stem (p.reverse.getD 0 (""))) 59

theorem charDigit_bounds {c : Char} {d : Nat} (h : charDigit c = some d) :
    48 ≤ c.toNat ∧ c.toNat ≤ 57 := by
  unfold charDigit at h
  by_cases hc : 48 ≤ c.toNat ∧ c.toNat ≤ 57
  · exact hc
  · rw [if_neg hc] at h; cases h

theorem charDigit_beq_false {c : Char} {d : Nat} (h : charDigit c = some d)
    (sp : Char) (hlt : sp.toNat < 48) : (c == sp) = false := by
  apply beq_eq_false_iff_ne.mpr
  intro he
  have := (charDigit_bounds h).1
  rw [he] at this
  omega

theorem charDigit_not_space {c : Char} {d : Nat} (h : charDigit c = some d) :
    isPySpace c = false := by
  unfold isPySpace
  rw [charDigit_beq_false h ' ' (by decide), charDigit_beq_false h '\t' (by decide),
    charDigit_beq_false h '\n' (by decide), charDigit_beq_false h '\r' (by decide),
    charDigit_beq_false h '\x0b' (by decide), charDigit_beq_false h '\x0c' (by decide)]
  rfl

theorem charDigit_ne_sign {c : Char} {d : Nat} (h : charDigit c = some d) :
    c ≠ '+' ∧ c ≠ '-' := by
  have hb := (charDigit_bounds h).1
  constructor <;> intro he <;> rw [he] at hb <;> simp at hb

theorem readAllDigits_pair {a b : Char} {da db : Nat}
    (ha : charDigit a = some da) (hb : charDigit b = some db) :
    readAllDigits [a, b] = some (da * 10 + db) := by
  simp [readAllDigits, readDigitsAcc, ha, hb]

/-- A two-digit numeric component is parsed by `int(...)` to its value. -/
theorem pyInt_twoDigit (s : String) (bound : Nat)
    (h : twoDigitVal s bound = true) :
    intInRange (pyInt s) 0 bound = true := by
  unfold twoDigitVal at h
  cases hs : s.data with
  | nil => rw [hs] at h; exact (Bool.false_ne_true h).elim
  | cons a rest =>
    cases rest with
    | nil => rw [hs] at h; exact (Bool.false_ne_true h).elim
    | cons b rest2 =>
      cases rest2 with
      | cons c rest3 => rw [hs] at h; exact (Bool.false_ne_true h).elim
      | nil =>
        rw [hs] at h
        have h2 : (match charDigit a, charDigit b with
            | some da, some db => decide (da * 10 + db ≤ bound)
            | _, _ => false) = true := h
        cases ha : charDigit a with
        | none => rw [ha] at h2; exact (Bool.false_ne_true h2).elim
        | some da =>
          cases hb : charDigit b with
          | none => rw [ha, hb] at h2; exact (Bool.false_ne_true h2).elim
          | some db =>
            rw [ha, hb] at h2
            have hle : da * 10 + db ≤ bound := of_decide_eq_true h2
            have hstrip : pyStrip s.data = [a, b] := by
              rw [hs]
              simp [pyStrip, List.dropWhile_cons, charDigit_not_space ha,
                charDigit_not_space hb]
            have hpy : pyInt s = some (((da * 10 + db : Nat) : Int)) := by
              simp only [pyInt, hstrip]
              rw [if_neg (charDigit_ne_sign ha).1, if_neg (charDigit_ne_sign ha).2,
                readAllDigits_pair ha hb]
              rfl
            rw [hpy]
            simp only [intInRange]
            rw [decide_eq_true (by positivity), decide_eq_true (by exact_mod_cast hle)]
            rfl

/-- C4 amended: the decoder fails exactly when the path has fewer than
three components, or the grandparent is not a parseable ISO date, or the
parent or stem is not `int`-parseable to an in-range hour/minute
(`decodeOk = codeAccepts`, an if-and-only-if); every path conforming to
the spec's strict two-digit convention decodes, so conforming files never
abort the run - but the acceptance is strictly more lenient than the
two-digit convention. -/
theorem decode_acceptance (p : FsPath) :
    decodeOk p = codeAccepts p ∧ (specConforming p = true → decodeOk p = true) := by
  have heq : decodeOk p = codeAccepts p := by
    by_cases h3 : p.length < 3
    · have h3n : ¬ 3 ≤ p.length := by omega
      simp [decodeOk, decodeSegment, if_pos h3, codeAccepts, h3n]
    · have h3y : 3 ≤ p.length := by omega
      simp only [decodeOk, decodeSegment, if_neg h3, codeAccepts,
        decide_eq_true h3y, Bool.true_and]
      cases hdt : parseIsoDate (p.reverse.getD 2 ("")) with
      | none => simp
      | some ymd =>
        obtain ⟨y, mo, d⟩ := ymd
        cases hh : pyInt (p.reverse.getD 1 ("")) with
        | none => simp [intInRange]
        | some hI =>
          cases hm : pyInt (stem (p.reverse.getD 0 (""))) with
          | none => simp [intInRange]
          | some miI =>
            simp only [Option.isSome_some, Bool.true_and, intInRange]
            by_cases hr : (0 ≤ hI ∧ hI ≤ 23 ∧ 0 ≤ miI ∧ miI ≤ 59)
            · rw [if_pos hr]
              simp [hr.1, hr.2.1, hr.2.2.1, hr.2.2.2]
            · rw [if_neg hr]
              symm
              rw [Bool.eq_false_iff]
              intro hc
              simp only [Bool.and_eq_true, decide_eq_true_eq] at hc
              exact hr ⟨hc.1.1, hc.1.2, hc.2.1, hc.2.2⟩
  refine ⟨heq, fun hs => ?_⟩
  rw [heq]
  unfold specConforming at hs
  simp only [Bool.and_eq_true] at hs
  unfold codeAccepts
  simp only [Bool.and_eq_true]
  exact ⟨⟨hs.1.1, pyInt_twoDigit _ _ hs.1.2⟩, pyInt_twoDigit _ _ hs.2⟩

/-- C4 counterexample: a one-digit hour directory (`5`) violates the
spec's two-digit naming convention, yet the decoder accepts the file
rather than failing on it. -/
theorem one_digit_hour_decodes :
    decodeOk (["2024-01-01", "5", "07.mp4"]) = true ∧
    specConforming (["2024-01-01", "5", "07.mp4"]) = false := by
  refine ⟨by decide, by decide⟩

/-- Witness for C4 amended at a conforming path. -/
theorem decode_acceptance_witness :
    specConforming (["2024-01-01", "13", "05.mp4"]) = true ∧
    decodeOk (["2024-01-01", "13", "05.mp4"]) = true :=
  ⟨by decide, (decode_acceptance (["2024-01-01", "13", "05.mp4"])).2 (by decide)⟩

/-! ## C5 machinery, part 1: the code-point lexicographic order -/

theorem lexLt_nil_right : ∀ b : List Nat, lexLt b [] = false := by
  intro b; cases b <;> rfl

theorem lexLt_irrefl : ∀ xs : List Nat, lexLt xs xs = false := by
  intro xs
  induction xs with
  | nil => rfl
  | cons x xs ih => simp [lexLt, ih]

theorem lexLt_cons_same (c : Nat) (xs ys : List Nat) :
    lexLt (c :: xs) (c :: ys) = lexLt xs ys := by
  simp [lexLt]

theorem lexLt_append_left : ∀ (a b c : List Nat),
    lexLt (a ++ b) (a ++ c) = lexLt b c := by
  intro a b c
  induction a with
  | nil => rfl
  | cons x xs ih => simpa [lexLt] using ih

theorem lexLt_append_iff : ∀ (a c b d : List Nat), a.length = c.length →
    (lexLt (a ++ b) (c ++ d) = true ↔
      (lexLt a c = true ∨ (a = c ∧ lexLt b d = true))) := by
  intro a
  induction a with
  | nil =>
    intro c b d hlen
    have hc : c = [] := by
      cases c with
      | nil => rfl
      | cons y ys => simp at hlen
    subst hc
    simp [lexLt]
  | cons x xs ih =>
    intro c b d hlen
    cases c with
    | nil => simp at hlen
    | cons y ys =>
      simp only [List.cons_append]
      by_cases hxy : x = y
      · subst hxy
        rw [lexLt_cons_same, lexLt_cons_same, ih ys b d (by simpa using hlen)]
        simp [List.cons.injEq]
      · have h1 : lexLt (x :: (xs ++ b)) (y :: (ys ++ d)) = decide (x < y) := by
          simp [lexLt, hxy]
        have h2 : lexLt (x :: xs) (y :: ys) = decide (x < y) := by
          simp [lexLt, hxy]
        rw [h1, h2]
        simp [List.cons.injEq, hxy]

theorem lexLt_trans : ∀ a b c : List Nat, lexLt a b = true → lexLt b c = true →
    lexLt a c = true := by
  intro a
  induction a with
  | nil =>
    intro b c h1 h2
    cases b with
    | nil => cases h1
    | cons y ys =>
      cases c with
      | nil => cases h2
      | cons z zs => rfl
  | cons x xs ih =>
    intro b c h1 h2
    cases b with
    | nil => rw [lexLt_nil_right] at h1; cases h1
    | cons y ys =>
      cases c with
      | nil => rw [lexLt_nil_right] at h2; cases h2
      | cons z zs =>
        simp only [lexLt] at h1 h2 ⊢
        by_cases hxy : x = y
        · subst hxy
          rw [if_pos rfl] at h1
          by_cases hyz : x = z
          · subst hyz; rw [if_pos rfl] at h2 ⊢; exact ih ys zs h1 h2
          · rw [if_neg hyz] at h2 ⊢; exact h2
        · rw [if_neg hxy] at h1
          have hxy2 : x < y := of_decide_eq_true h1
          by_cases hyz : y = z
          · subst hyz
            rw [if_neg hxy]
            exact decide_eq_true hxy2
          · rw [if_neg hyz] at h2
            have hyz2 : y < z := of_decide_eq_true h2
            rw [if_neg (by omega : ¬ x = z)]
            exact decide_eq_true (by omega)

theorem lexLt_asymm (a b : List Nat) (h : lexLt a b = true) :
    lexLt b a = false := by
  by_contra h2
  rw [Bool.not_eq_false] at h2
  have := lexLt_trans a b a h h2
  rw [lexLt_irrefl] at this
  cases this

theorem lexLt_connex : ∀ a b : List Nat, lexLt a b = false → lexLt b a = false →
    a = b := by
  intro a
  induction a with
  | nil =>
    intro b h1 _
    cases b with
    | nil => rfl
    | cons y ys => cases h1
  | cons x xs ih =>
    intro b h1 h2
    cases b with
    | nil => cases h2
    | cons y ys =>
      simp only [lexLt] at h1 h2
      by_cases hxy : x = y
      · subst hxy
        rw [if_pos rfl] at h1 h2
        rw [ih ys h1 h2]
      · rw [if_neg hxy] at h1
        rw [if_neg (fun he => hxy he.symm)] at h2
        have hn1 : ¬ x < y := of_decide_eq_false h1
        have hn2 : ¬ y < x := of_decide_eq_false h2
        omega

theorem lexLt_snoc_same (xs ys : List Nat) (c : Nat) (hlen : xs.length = ys.length) :
    lexLt (xs ++ [c]) (ys ++ [c]) = lexLt xs ys := by
  cases hxy : lexLt xs ys with
  | true => exact (lexLt_append_iff xs ys [c] [c] hlen).mpr (Or.inl hxy)
  | false =>
    by_contra hc
    rw [Bool.not_eq_false] at hc
    rcases (lexLt_append_iff xs ys [c] [c] hlen).mp hc with h | ⟨_, h⟩
    · rw [hxy] at h; cases h
    · rw [lexLt_irrefl] at h; cases h

theorem listLeB_of_not_lexLt : ∀ a b : List Nat, a.length = b.length →
    lexLt b a = false → listLeB a b = true := by
  intro a
  induction a with
  | nil => intro b _ _; exact listLeB_nil_left b
  | cons x xs ih =>
    intro b hlen hlt
    cases b with
    | nil => simp at hlen
    | cons y ys =>
      simp only [lexLt] at hlt
      simp only [listLeB]
      by_cases hxy : x = y
      · subst hxy
        rw [if_pos rfl] at hlt ⊢
        exact ih ys (by simpa using hlen) hlt
      · rw [if_neg (fun he => hxy he.symm)] at hlt
        have : ¬ y < x := of_decide_eq_false hlt
        rw [if_neg hxy]
        exact decide_eq_true (by omega)

theorem lexLt_false_of_listLeB : ∀ a b : List Nat, listLeB a b = true →
    lexLt b a = false := by
  intro a
  induction a with
  | nil => intro b _; exact lexLt_nil_right b
  | cons x xs ih =>
    intro b h
    cases b with
    | nil => simp [listLeB] at h
    | cons y ys =>
      simp only [listLeB] at h
      simp only [lexLt]
      by_cases hxy : x = y
      · subst hxy
        rw [if_pos rfl] at h
        rw [if_pos rfl]
        exact ih ys h
      · rw [if_neg hxy] at h
        have hx : x < y := of_decide_eq_true h
        rw [if_neg (fun he => hxy he.symm)]
        exact decide_eq_false (by omega)

/-! ## C5 machinery, part 2: fixed-width zero-padded components -/

theorem padCodes_length (w : Nat) : ∀ n, (padCodes w n).length = w := by
  induction w with
  | zero => intro n; rfl
  | succ w ih => intro n; simp [padCodes, ih]

theorem padChars_length (w : Nat) : ∀ n, (padChars w n).length = w := by
  induction w with
  | zero => intro n; rfl
  | succ w ih => intro n; simp [padChars, ih]

theorem digitChar_toNat : ∀ k, k < 10 → (digitChar k).toNat = 48 + k := by decide

theorem charDigit_digitChar : ∀ k, k < 10 → charDigit (digitChar k) = some k := by
  decide

theorem padChars_map_toNat (w : Nat) : ∀ n,
    (padChars w n).map Char.toNat = padCodes w n := by
  induction w with
  | zero => intro n; rfl
  | succ w ih =>
    intro n
    simp [padChars, padCodes, ih, digitChar_toNat (n % 10) (Nat.mod_lt n (by norm_num))]

theorem padCodes_inj (w : Nat) : ∀ a b, a < 10 ^ w → b < 10 ^ w →
    padCodes w a = padCodes w b → a = b := by
  induction w with
  | zero => intro a b ha hb _; omega
  | succ w ih =>
    intro a b ha hb h
    simp only [padCodes] at h
    obtain ⟨h1, h2⟩ := List.append_inj h (by rw [padCodes_length, padCodes_length])
    have hda : a / 10 < 10 ^ w := by
      rw [Nat.div_lt_iff_lt_mul (by norm_num)]
      calc a < 10 ^ (w + 1) := ha
        _ = 10 ^ w * 10 := pow_succ 10 w
    have hdb : b / 10 < 10 ^ w := by
      rw [Nat.div_lt_iff_lt_mul (by norm_num)]
      calc b < 10 ^ (w + 1) := hb
        _ = 10 ^ w * 10 := pow_succ 10 w
    have hd : a / 10 = b / 10 := ih _ _ hda hdb h1
    have hm : 48 + a % 10 = 48 + b % 10 := by simpa using h2
    omega

theorem padCodes_lt (w : Nat) : ∀ a b, a < 10 ^ w → b < 10 ^ w →
    (lexLt (padCodes w a) (padCodes w b) = true ↔ a < b) := by
  induction w with
  | zero =>
    intro a b ha hb
    have ha0 : a = 0 := by omega
    have hb0 : b = 0 := by omega
    subst ha0; subst hb0
    simp [padCodes, lexLt]
  | succ w ih =>
    intro a b ha hb
    have hda : a / 10 < 10 ^ w := by
      rw [Nat.div_lt_iff_lt_mul (by norm_num)]
      calc a < 10 ^ (w + 1) := ha
        _ = 10 ^ w * 10 := pow_succ 10 w
    have hdb : b / 10 < 10 ^ w := by
      rw [Nat.div_lt_iff_lt_mul (by norm_num)]
      calc b < 10 ^ (w + 1) := hb
        _ = 10 ^ w * 10 := pow_succ 10 w
    simp only [padCodes]
    rw [lexLt_append_iff _ _ _ _ (by rw [padCodes_length, padCodes_length])]
    constructor
    · rintro (h | ⟨heq, h⟩)
      · have := (ih _ _ hda hdb).mp h
        omega
      · have hdiv : a / 10 = b / 10 := padCodes_inj w _ _ hda hdb heq
        by_cases he : 48 + a % 10 = 48 + b % 10
        · simp [lexLt, he] at h
        · simp only [lexLt, if_neg he] at h
          have : 48 + a % 10 < 48 + b % 10 := of_decide_eq_true h
          omega
    · intro hab
      by_cases hdiv : a / 10 < b / 10
      · exact Or.inl ((ih _ _ hda hdb).mpr hdiv)
      · have hd2 : a / 10 = b / 10 := by omega
        refine Or.inr ⟨by rw [hd2], ?_⟩
        have hm : a % 10 < b % 10 := by omega
        have hne : ¬ (48 + a % 10 = 48 + b % 10) := by omega
        simp only [lexLt, if_neg hne]
        exact decide_eq_true (by omega)

theorem readDigitsAcc_append : ∀ (xs ys : List Char) (acc : Nat),
    readDigitsAcc (xs ++ ys) acc =
      match readDigitsAcc xs acc with
      | some m => readDigitsAcc ys m
      | none => none := by
  intro xs
  induction xs with
  | nil => intro ys acc; rfl
  | cons c cs ih =>
    intro ys acc
    simp only [List.cons_append, readDigitsAcc]
    cases hcd : charDigit c with
    | none => rfl
    | some d => exact ih ys (acc * 10 + d)

theorem readDigitsAcc_padChars (w : Nat) : ∀ n acc, n < 10 ^ w →
    readDigitsAcc (padChars w n) acc = some (acc * 10 ^ w + n) := by
  induction w with
  | zero =>
    intro n acc hn
    have : n = 0 := by omega
    subst this
    simp [padChars, readDigitsAcc]
  | succ w ih =>
    intro n acc hn
    have hdiv : n / 10 < 10 ^ w := by
      rw [Nat.div_lt_iff_lt_mul (by norm_num)]
      calc n < 10 ^ (w + 1) := hn
        _ = 10 ^ w * 10 := pow_succ 10 w
    simp only [padChars]
    rw [readDigitsAcc_append, ih (n / 10) acc hdiv]
    simp only [readDigitsAcc, charDigit_digitChar (n % 10) (Nat.mod_lt n (by norm_num))]
    congr 1
    rw [pow_succ, ← mul_assoc]
    generalize acc * 10 ^ w = A
    omega

/-! ## C5 machinery, part 3: conforming segment paths decode canonically -/

theorem daysInMonth_le (y m : Nat) : daysInMonth y m ≤ 31 := by
  unfold daysInMonth
  split_ifs <;> omega

theorem getD_append_head (l₁ : List Char) (c : Char) (l₂ : List Char) (d : Char) :
    (l₁ ++ c :: l₂).getD l₁.length d = c := by
  induction l₁ with
  | nil => rfl
  | cons x xs ih => simpa using ih

/-- `<YYYY-MM-DD>`, as produced by the camera's naming convention with
fixed-width zero-padded components. -/
def isoDateString (y mo d : Nat) : String :=
  String.mk (padChars 4 y ++ '-' :: (padChars 2 mo ++ '-' :: padChars 2 d))

/-- `<HH>`, the two-digit hour directory name. -/
def hourName (h : Nat) : String := String.mk (padChars 2 h)

/-- `<MM>.mp4`, the two-digit minute file name. -/
def minuteName (mi : Nat) : String :=
  String.mk (padChars 2 mi ++ ['.', 'm', 'p', '4'])

/-- A path under `root` that conforms to the fixed-width zero-padded
three-level naming convention with in-range components. -/
def FixedConforming (root p : FsPath) : Prop :=
  ∃ y mo d h mi, 1 ≤ y ∧ y ≤ 9999 ∧ 1 ≤ mo ∧ mo ≤ 12 ∧ 1 ≤ d ∧
    d ≤ daysInMonth y mo ∧ h ≤ 23 ∧ mi ≤ 59 ∧
    p = root ++ [isoDateString y mo d, hourName h, minuteName mi]

theorem parseIsoDate_iso (y mo d : Nat) (hy1 : 1 ≤ y) (hy : y ≤ 9999)
    (hmo1 : 1 ≤ mo) (hmo : mo ≤ 12) (hd1 : 1 ≤ d) (hd : d ≤ daysInMonth y mo) :
    parseIsoDate (isoDateString y mo d) = some (y, mo, d) := by
  have hlen4 : (padChars 4 y).length = 4 := padChars_length 4 y
  have hlen2m : (padChars 2 mo).length = 2 := padChars_length 2 mo
  have hlen2d : (padChars 2 d).length = 2 := padChars_length 2 d
  have hdata : (isoDateString y mo d).data
      = padChars 4 y ++ '-' :: (padChars 2 mo ++ '-' :: padChars 2 d) := rfl
  have hassoc5 : (isoDateString y mo d).data
      = (padChars 4 y ++ ['-']) ++ (padChars 2 mo ++ '-' :: padChars 2 d) := by
    rw [hdata]; simp
  have hassoc8 : (isoDateString y mo d).data
      = ((padChars 4 y ++ '-' :: padChars 2 mo) ++ ['-']) ++ padChars 2 d := by
    rw [hdata]; simp
  have hlen : (isoDateString y mo d).data.length = 10 := by
    rw [hdata]; simp [hlen4, hlen2m, hlen2d]
  have hassoc7 : (isoDateString y mo d).data
      = (padChars 4 y ++ '-' :: padChars 2 mo) ++ '-' :: padChars 2 d := by
    rw [hdata]; simp
  have hget4 : (isoDateString y mo d).data.getD 4 ' ' = '-' := by
    have h := getD_append_head (padChars 4 y) '-'
      (padChars 2 mo ++ '-' :: padChars 2 d) ' '
    rw [hlen4] at h
    rw [hdata]
    exact h
  have hget7 : (isoDateString y mo d).data.getD 7 ' ' = '-' := by
    have h := getD_append_head (padChars 4 y ++ '-' :: padChars 2 mo) '-'
      (padChars 2 d) ' '
    rw [show (padChars 4 y ++ '-' :: padChars 2 mo).length = 7 from by
      simp [hlen4, hlen2m]] at h
    rw [hassoc7]
    exact h
  have htake : (isoDateString y mo d).data.take 4 = padChars 4 y := by
    rw [hdata]
    exact List.take_left' hlen4
  have hdrop5 : (isoDateString y mo d).data.drop 5
      = padChars 2 mo ++ '-' :: padChars 2 d := by
    rw [hassoc5]
    exact List.drop_left' (by simp [hlen4])
  have htake2 : ((isoDateString y mo d).data.drop 5).take 2 = padChars 2 mo := by
    rw [hdrop5]
    exact List.take_left' hlen2m
  have hdrop8 : (isoDateString y mo d).data.drop 8 = padChars 2 d := by
    rw [hassoc8]
    exact List.drop_left' (by simp [hlen4, hlen2m])
  have hy4 : y < 10 ^ 4 := by norm_num; omega
  have hmo2 : mo < 10 ^ 2 := by norm_num; omega
  have hd2 : d < 10 ^ 2 := by
    have := daysInMonth_le y mo
    norm_num
    omega
  unfold parseIsoDate
  rw [if_pos ⟨hlen, hget4, hget7⟩, htake, htake2, hdrop8]
  rw [readDigitsAcc_padChars 4 y 0 hy4, readDigitsAcc_padChars 2 mo 0 hmo2,
    readDigitsAcc_padChars 2 d 0 hd2]
  simp only [Nat.zero_mul, Nat.zero_add]
  rw [if_pos ⟨hy1, hmo1, hmo, hd1, hd⟩]

theorem padChars_two (n : Nat) (hn : n ≤ 99) :
    padChars 2 n = [digitChar (n / 10), digitChar (n % 10)] := by
  have e1 : padChars 2 n = padChars 1 (n / 10) ++ [digitChar (n % 10)] := rfl
  have e2 : padChars 1 (n / 10) = [digitChar (n / 10 % 10)] := rfl
  have h1 : n / 10 % 10 = n / 10 := by omega
  rw [e1, e2, h1]
  rfl

theorem pyInt_padChars2 (n : Nat) (hn : n ≤ 99) :
    pyInt (String.mk (padChars 2 n)) = some ((n : Int)) := by
  have hda : charDigit (digitChar (n / 10)) = some (n / 10) :=
    charDigit_digitChar _ (by omega)
  have hdb : charDigit (digitChar (n % 10)) = some (n % 10) :=
    charDigit_digitChar _ (by omega)
  have hpad := padChars_two n hn
  have hstrip : pyStrip (String.mk (padChars 2 n)).data
      = [digitChar (n / 10), digitChar (n % 10)] := by
    show pyStrip (padChars 2 n) = _
    rw [hpad]
    simp [pyStrip, List.dropWhile_cons, charDigit_not_space hda,
      charDigit_not_space hdb]
  simp only [pyInt, hstrip]
  rw [if_neg (charDigit_ne_sign hda).1, if_neg (charDigit_ne_sign hda).2,
    readAllDigits_pair hda hdb]
  have hv : n / 10 * 10 + n % 10 = n := by omega
  rw [hv]
  rfl

theorem stem_minuteName (mi : Nat) (hmi : mi ≤ 99) :
    stem (minuteName mi) = String.mk (padChars 2 mi) := by
  have hpad := padChars_two mi hmi
  have hdata : (minuteName mi).data
      = [digitChar (mi / 10), digitChar (mi % 10), '.', 'm', 'p', '4'] := by
    show padChars 2 mi ++ ['.', 'm', 'p', '4'] = _
    rw [hpad]
    rfl
  have hfind : rfindDot [digitChar (mi / 10), digitChar (mi % 10), '.', 'm', 'p', '4']
      = some 2 := by
    unfold rfindDot
    have hrev : List.reverse
        [digitChar (mi / 10), digitChar (mi % 10), '.', 'm', 'p', '4']
        = ['4', 'p', 'm', '.', digitChar (mi % 10), digitChar (mi / 10)] := by
      simp
    rw [hrev]
    simp [List.findIdx?_cons]
  unfold stem
  rw [hdata, hfind]
  show (if 0 < 2 ∧ 2 + 1
        < [digitChar (mi / 10), digitChar (mi % 10), '.', 'm', 'p', '4'].length
      then String.mk
        ([digitChar (mi / 10), digitChar (mi % 10), '.', 'm', 'p', '4'].take 2)
      else minuteName mi)
    = String.mk (padChars 2 mi)
  rw [if_pos (by simp)]
  rw [hpad]
  rfl

theorem decode_conforming (root : FsPath) (y mo d h mi : Nat)
    (hy1 : 1 ≤ y) (hy : y ≤ 9999) (hmo1 : 1 ≤ mo) (hmo : mo ≤ 12)
    (hd1 : 1 ≤ d) (hd : d ≤ daysInMonth y mo) (hh : h ≤ 23) (hmi : mi ≤ 59) :
    decodeSegment (root ++ [isoDateString y mo d, hourName h, minuteName mi])
      = .ok ⟨y, mo, d, h, mi, 0⟩ := by
  have hrev : (root ++ [isoDateString y mo d, hourName h, minuteName mi]).reverse
      = minuteName mi :: hourName h :: isoDateString y mo d :: root.reverse := by
    simp
  have hlen : ¬ (root ++ [isoDateString y mo d, hourName h, minuteName mi]).length < 3 := by
    simp
  have e1 : pyInt (hourName h) = some ((h : Int)) := pyInt_padChars2 h (by omega)
  have e2 : pyInt (String.mk (padChars 2 mi)) = some ((mi : Int)) :=
    pyInt_padChars2 mi (by omega)
  unfold decodeSegment
  rw [if_neg hlen, hrev]
  simp only [List.getD_cons_zero, List.getD_cons_succ,
    parseIsoDate_iso y mo d hy1 hy hmo1 hmo hd1 hd, stem_minuteName mi (by omega),
    e1, e2]
  rw [if_pos (by omega :
    (0 : Int) ≤ (h : Int) ∧ (h : Int) ≤ 23 ∧ (0 : Int) ≤ (mi : Int) ∧ (mi : Int) ≤ 59)]
  simp

/-! ## C5 machinery, part 4: path order vs timestamp order -/

/-- The code points a non-final path prefix contributes to `str(path)`. -/
def rootJoin : FsPath → List Nat
  | [] => []
  | s :: r => (if s = "/" then strCodes s else strCodes s ++ [47]) ++ rootJoin r

theorem pathCodes_cons_cons (s r : String) (rest : FsPath) :
    pathCodes (s :: r :: rest)
      = if s = "/" then strCodes s ++ pathCodes (r :: rest)
        else strCodes s ++ 47 :: pathCodes (r :: rest) := rfl

theorem pathCodes_append : ∀ (root rest : FsPath), rest ≠ [] →
    pathCodes (root ++ rest) = rootJoin root ++ pathCodes rest := by
  intro root
  induction root with
  | nil => intro rest _; simp [rootJoin]
  | cons s r ih =>
    intro rest hne
    cases hcr : r ++ rest with
    | nil => exact absurd (List.append_eq_nil.mp hcr).2 hne
    | cons x l =>
      rw [List.cons_append, hcr, pathCodes_cons_cons, ← hcr, ih rest hne]
      show _ = ((if s = "/" then strCodes s else strCodes s ++ [47]) ++ rootJoin r)
        ++ pathCodes rest
      by_cases hs : s = "/"
      · rw [if_pos hs, if_pos hs]
        simp [List.append_assoc]
      · rw [if_neg hs, if_neg hs]
        simp [List.append_assoc]

theorem strCodes_isoDateString (y mo d : Nat) :
    strCodes (isoDateString y mo d)
      = padCodes 4 y ++ 45 :: (padCodes 2 mo ++ 45 :: padCodes 2 d) := by
  show (padChars 4 y ++ '-' :: (padChars 2 mo ++ '-' :: padChars 2 d)).map Char.toNat
    = _
  rw [List.map_append, List.map_cons, List.map_append, List.map_cons,
    padChars_map_toNat, padChars_map_toNat, padChars_map_toNat]
  rfl

theorem strCodes_hourName (h : Nat) : strCodes (hourName h) = padCodes 2 h :=
  padChars_map_toNat 2 h

theorem strCodes_minuteName (mi : Nat) :
    strCodes (minuteName mi) = padCodes 2 mi ++ [46, 109, 112, 52] := by
  show (padChars 2 mi ++ ['.', 'm', 'p', '4']).map Char.toNat = _
  rw [List.map_append, padChars_map_toNat]
  rfl

/-- The code points of the conforming three-component tail
`<date>/<hour>/<minute>.mp4` of a segment path. -/
def segCodes (y mo d h mi : Nat) : List Nat :=
  padCodes 4 y ++ 45 :: (padCodes 2 mo ++ 45 :: (padCodes 2 d ++ 47 ::
    (padCodes 2 h ++ 47 :: (padCodes 2 mi ++ [46, 109, 112, 52]))))

theorem isoDateString_data_length (y mo d : Nat) :
    (isoDateString y mo d).data.length = 10 := by
  show (padChars 4 y ++ '-' :: (padChars 2 mo ++ '-' :: padChars 2 d)).length = 10
  simp [padChars_length]

theorem ne_slash_isoDateString (y mo d : Nat) : isoDateString y mo d ≠ ("/") := by
  intro he
  have h1 := isoDateString_data_length y mo d
  rw [he] at h1
  simp at h1

theorem ne_slash_hourName (h : Nat) : hourName h ≠ ("/") := by
  intro he
  have h1 : (hourName h).data.length = 2 := by
    show (padChars 2 h).length = 2
    exact padChars_length 2 h
  rw [he] at h1
  simp at h1

theorem pathCodes_seg (y mo d h mi : Nat) :
    pathCodes [isoDateString y mo d, hourName h, minuteName mi]
      = segCodes y mo d h mi := by
  rw [pathCodes_cons_cons, if_neg (ne_slash_isoDateString y mo d),
    pathCodes_cons_cons, if_neg (ne_slash_hourName h)]
  show strCodes (isoDateString y mo d) ++ 47 ::
      (strCodes (hourName h) ++ 47 :: strCodes (minuteName mi)) = _
  rw [strCodes_isoDateString, strCodes_hourName, strCodes_minuteName]
  unfold segCodes
  simp [List.append_assoc]

theorem lexLt_pad_block (w a b : Nat) (ha : a < 10 ^ w) (hb : b < 10 ^ w)
    (sep : Nat) (R1 R2 : List Nat) :
    (lexLt (padCodes w a ++ sep :: R1) (padCodes w b ++ sep :: R2) = true ↔
      (a < b ∨ (a = b ∧ lexLt R1 R2 = true))) := by
  rw [lexLt_append_iff _ _ _ _ (by rw [padCodes_length, padCodes_length])]
  constructor
  · rintro (hlt | ⟨heq, hrest⟩)
    · exact Or.inl ((padCodes_lt w a b ha hb).mp hlt)
    · refine Or.inr ⟨padCodes_inj w a b ha hb heq, ?_⟩
      rwa [lexLt_cons_same] at hrest
  · rintro (hlt | ⟨rfl, hrest⟩)
    · exact Or.inl ((padCodes_lt w a b ha hb).mpr hlt)
    · exact Or.inr ⟨rfl, by rwa [lexLt_cons_same]⟩

theorem lexLt_pad_final (w a b : Nat) (ha : a < 10 ^ w) (hb : b < 10 ^ w)
    (tail : List Nat) :
    (lexLt (padCodes w a ++ tail) (padCodes w b ++ tail) = true ↔ a < b) := by
  rw [lexLt_append_iff _ _ _ _ (by rw [padCodes_length, padCodes_length])]
  constructor
  · rintro (hlt | ⟨heq, htail⟩)
    · exact (padCodes_lt w a b ha hb).mp hlt
    · rw [lexLt_irrefl] at htail; cases htail
  · intro hab
    exact Or.inl ((padCodes_lt w a b ha hb).mpr hab)

theorem lexLt_cons_iff (x y : Nat) (xs ys : List Nat) :
    (lexLt (x :: xs) (y :: ys) = true ↔ (x < y ∨ (x = y ∧ lexLt xs ys = true))) := by
  by_cases hxy : x = y
  · subst hxy
    simp [lexLt]
  · simp [lexLt, hxy]

theorem lexLt_segCodes (y1 mo1 d1 h1 mi1 y2 mo2 d2 h2 mi2 : Nat)
    (hy1 : y1 ≤ 9999) (hmo1 : mo1 ≤ 12) (hd1 : d1 ≤ 31) (hh1 : h1 ≤ 23)
    (hmi1 : mi1 ≤ 59) (hy2 : y2 ≤ 9999) (hmo2 : mo2 ≤ 12) (hd2 : d2 ≤ 31)
    (hh2 : h2 ≤ 23) (hmi2 : mi2 ≤ 59) :
    (lexLt (segCodes y1 mo1 d1 h1 mi1) (segCodes y2 mo2 d2 h2 mi2) = true ↔
      lexLt [y1, mo1, d1, h1, mi1] [y2, mo2, d2, h2, mi2] = true) := by
  unfold segCodes
  rw [lexLt_pad_block 4 y1 y2 (by norm_num; omega) (by norm_num; omega) 45 _ _,
    lexLt_pad_block 2 mo1 mo2 (by norm_num; omega) (by norm_num; omega) 45 _ _,
    lexLt_pad_block 2 d1 d2 (by norm_num; omega) (by norm_num; omega) 47 _ _,
    lexLt_pad_block 2 h1 h2 (by norm_num; omega) (by norm_num; omega) 47 _ _,
    lexLt_pad_final 2 mi1 mi2 (by norm_num; omega) (by norm_num; omega) _,
    lexLt_cons_iff y1 y2, lexLt_cons_iff mo1 mo2, lexLt_cons_iff d1 d2,
    lexLt_cons_iff h1 h2, lexLt_cons_iff mi1 mi2]
  simp [lexLt_nil_right]

theorem listLeB_snoc_same : ∀ (xs ys : List Nat) (c : Nat),
    xs.length = ys.length →
    listLeB (xs ++ [c]) (ys ++ [c]) = listLeB xs ys := by
  intro xs
  induction xs with
  | nil =>
    intro ys c hlen
    have hy : ys = [] := by
      cases ys with
      | nil => rfl
      | cons z zs => simp at hlen
    subst hy
    simp [listLeB]
  | cons x xs ih =>
    intro ys c hlen
    cases ys with
    | nil => simp at hlen
    | cons y ys =>
      simp only [List.cons_append, listLeB]
      by_cases hxy : x = y
      · subst hxy
        rw [if_pos rfl, if_pos rfl]
        exact ih ys c (by simpa using hlen)
      · rw [if_neg hxy, if_neg hxy]

instance : IsTrans FsPath pathLe := by
  constructor
  intro a b c hab hbc
  unfold pathLe at hab hbc ⊢
  by_contra hc
  rw [Bool.not_eq_false] at hc
  cases hAB : lexLt (pathCodes a) (pathCodes b) with
  | true =>
    have := lexLt_trans _ _ _ hc hAB
    rw [hbc] at this
    cases this
  | false =>
    have hba : pathCodes b = pathCodes a := lexLt_connex _ _ hab hAB
    rw [hba] at hbc
    rw [hbc] at hc
    cases hc

instance : IsTotal FsPath pathLe := by
  constructor
  intro a b
  unfold pathLe
  cases h : lexLt (pathCodes b) (pathCodes a) with
  | false => exact Or.inl rfl
  | true => exact Or.inr (lexLt_asymm _ _ h)

/-- Decoded-timestamp comparison of two candidates (false unless both
decode). -/
def tsLeB (p q : FsPath) : Bool :=
  match decodeSegment p, decodeSegment q with
  | .ok a, .ok b => dtLe a b
  | _, _ => false

/-- For two conforming segment paths under the same root, path-string order
and decoded-timestamp order coincide. -/
theorem conforming_order_iff (root p q : FsPath)
    (hp : FixedConforming root p) (hq : FixedConforming root q) :
    (pathLe p q ↔ tsLeB p q = true) := by
  obtain ⟨y1, mo1, d1, h1, mi1, hy11, hy1, hmo11, hmo1, hd11, hd1, hh1, hmi1, rfl⟩ := hp
  obtain ⟨y2, mo2, d2, h2, mi2, hy21, hy2, hmo21, hmo2, hd21, hd2, hh2, hmi2, rfl⟩ := hq
  have hdec1 := decode_conforming root y1 mo1 d1 h1 mi1 hy11 hy1 hmo11 hmo1 hd11 hd1
    hh1 hmi1
  have hdec2 := decode_conforming root y2 mo2 d2 h2 mi2 hy21 hy2 hmo21 hmo2 hd21 hd2
    hh2 hmi2
  have htsb : tsLeB (root ++ [isoDateString y1 mo1 d1, hourName h1, minuteName mi1])
      (root ++ [isoDateString y2 mo2 d2, hourName h2, minuteName mi2])
      = dtLe ⟨y1, mo1, d1, h1, mi1, 0⟩ ⟨y2, mo2, d2, h2, mi2, 0⟩ := by
    unfold tsLeB
    rw [hdec1, hdec2]
  have hcodes1 : pathCodes
      (root ++ [isoDateString y1 mo1 d1, hourName h1, minuteName mi1])
      = rootJoin root ++ segCodes y1 mo1 d1 h1 mi1 := by
    rw [pathCodes_append root _ (by simp), pathCodes_seg]
  have hcodes2 : pathCodes
      (root ++ [isoDateString y2 mo2 d2, hourName h2, minuteName mi2])
      = rootJoin root ++ segCodes y2 mo2 d2 h2 mi2 := by
    rw [pathCodes_append root _ (by simp), pathCodes_seg]
  have hd31 : d1 ≤ 31 := le_trans hd1 (daysInMonth_le y1 mo1)
  have hd32 : d2 ≤ 31 := le_trans hd2 (daysInMonth_le y2 mo2)
  have hseg := lexLt_segCodes y2 mo2 d2 h2 mi2 y1 mo1 d1 h1 mi1 hy2 hmo2 hd32 hh2
    hmi2 hy1 hmo1 hd31 hh1 hmi1
  unfold pathLe
  rw [hcodes1, hcodes2, lexLt_append_left, htsb]
  have hsix1 : ([y1, mo1, d1, h1, mi1, 0] : List Nat)
      = [y1, mo1, d1, h1, mi1] ++ [0] := rfl
  have hsix2 : ([y2, mo2, d2, h2, mi2, 0] : List Nat)
      = [y2, mo2, d2, h2, mi2] ++ [0] := rfl
  constructor
  · intro hfalse
    have ht : lexLt [y2, mo2, d2, h2, mi2] [y1, mo1, d1, h1, mi1] = false := by
      cases hl : lexLt [y2, mo2, d2, h2, mi2] [y1, mo1, d1, h1, mi1] with
      | false => rfl
      | true =>
        have h2 := hseg.mpr hl
        rw [hfalse] at h2
        cases h2
    have h5 : listLeB [y1, mo1, d1, h1, mi1] [y2, mo2, d2, h2, mi2] = true :=
      listLeB_of_not_lexLt _ _ (by simp) ht
    show listLeB [y1, mo1, d1, h1, mi1, 0] [y2, mo2, d2, h2, mi2, 0] = true
    rw [hsix1, hsix2, listLeB_snoc_same _ _ 0 (by simp)]
    exact h5
  · intro htrue
    have h6 : listLeB [y1, mo1, d1, h1, mi1, 0] [y2, mo2, d2, h2, mi2, 0] = true :=
      htrue
    rw [hsix1, hsix2, listLeB_snoc_same _ _ 0 (by simp)] at h6
    have hlt := lexLt_false_of_listLeB _ _ h6
    cases hs : lexLt (segCodes y2 mo2 d2 h2 mi2) (segCodes y1 mo1 d1 h1 mi1) with
    | false => rfl
    | true =>
      have h2 := hseg.mp hs
      rw [hlt] at h2
      cases h2

/-- C5: the manifest entries are written in ascending path-lexicographic
order (the sort Python's `sorted` performs on the path strings), and for
conforming fixed-width zero-padded segment paths under a common root this
order coincides with decoded-timestamp order, so the decoded timestamps of
the manifest lines are non-decreasing. -/
theorem manifest_sorted (root : FsPath) (segs : List FsPath)
    (hconf : ∀ p ∈ segs, FixedConforming root p) :
    List.Sorted pathLe (sortPaths segs) ∧
    List.Pairwise (fun p q => tsLeB p q = true) (sortPaths segs) := by
  have hsorted : List.Sorted pathLe (sortPaths segs) :=
    List.sorted_insertionSort pathLe segs
  refine ⟨hsorted, List.Pairwise.imp_of_mem ?_ hsorted⟩
  intro p q hpmem hqmem hle
  have hp : FixedConforming root p :=
    hconf p ((List.perm_insertionSort pathLe segs).mem_iff.mp hpmem)
  have hq : FixedConforming root q :=
    hconf q ((List.perm_insertionSort pathLe segs).mem_iff.mp hqmem)
  exact (conforming_order_iff root p q hp hq).mp hle

/-- Witness for C5: two conforming files given out of order come out of the
sort in path order with non-decreasing timestamps. -/
theorem manifest_sorted_witness :
    List.Sorted pathLe (sortPaths
      [["cam", "2024-01-02", "13", "10.mp4"], ["cam", "2024-01-01", "09", "05.mp4"]]) ∧
    List.Pairwise (fun p q => tsLeB p q = true) (sortPaths
      [["cam", "2024-01-02", "13", "10.mp4"], ["cam", "2024-01-01", "09", "05.mp4"]]) :=
  manifest_sorted ["cam"] _ (by
    intro p hp
    rcases List.mem_cons.mp hp with rfl | hp2
    · exact ⟨2024, 1, 2, 13, 10, by decide⟩
    · rcases List.mem_cons.mp hp2 with rfl | h0
      · exact ⟨2024, 1, 1, 9, 5, by decide⟩
      · cases h0)
